import Mathlib

/-!
Verification of the MSI combined-name decoder (`src/msi-reader/src/lib.rs` and
`src/msi-reader/src/main.rs`).

Strings are modelled as `List Char`; Rust's `str::find(c)` (index of the first
occurrence of the separator character) is modelled by `strFind`, and Rust's
slicing `s[..i]` / `s[i+1..]` by `List.take` / `List.drop`.  The separators
`:` and `|` are single ASCII characters, so splitting at the first occurrence
in the byte string and in the character list yield the same decomposition.
-/

/-- Model of Rust `str::find(c)`: the index of the first occurrence of `c`,
or `none` when `c` does not occur. -/
def strFind (c : Char) : List Char → Option Nat
  | [] => none
  | x :: xs => if x = c then some 0 else (strFind c xs).map (fun i => i + 1)

/-- `MsiName` from `lib.rs` (module `directory`): a view on a combined
string holding an optional short form and a long form separated by `|`. -/
structure MsiName where
  combined : List Char
deriving DecidableEq

/-- `MsiDirectoryName` from `lib.rs` (module `directory`): a view on a
combined string holding an optional source and a target separated by `:`. -/
structure MsiDirectoryName where
  combined : List Char
deriving DecidableEq

/-- `impl From<&str> for MsiName`. -/
def MsiName.ofStr (s : List Char) : MsiName := ⟨s⟩

/-- `impl From<&str> for MsiDirectoryName`. -/
def MsiDirectoryName.ofStr (s : List Char) : MsiDirectoryName := ⟨s⟩

/-- `MsiName::long`: the text after the first `|`, or the whole string. -/
def MsiName.long (n : MsiName) : List Char :=
  match strFind '|' n.combined with
  | some index => n.combined.drop (index + 1)
  | none => n.combined

/-- `MsiName::short`: the text before the first `|`, when `|` occurs. -/
def MsiName.short (n : MsiName) : Option (List Char) :=
  match strFind '|' n.combined with
  | some index => some (n.combined.take index)
  | none => none

/-- `MsiName::is_located_at_parent`: long form first, then short form. -/
def MsiName.is_located_at_parent (n : MsiName) : Bool :=
  if n.long = ['.'] then
    true
  else
    match n.short with
    | some src => decide (src = ['.'])
    | none => false

/-- `Display for MsiName`: `short = {short}, long = {long}` when a short
form is present, otherwise just the long form. -/
def MsiName.display (n : MsiName) : List Char :=
  match n.short with
  | some sh => "short = ".toList ++ sh ++ ", long = ".toList ++ n.long
  | none => n.long

/-- `Debug for MsiName`: the raw combined string. -/
def MsiName.debugFmt (n : MsiName) : List Char :=
  n.combined

/-- `MsiDirectoryName::source`: the text before the first `:`, when `:`
occurs, viewed as an `MsiName`. -/
def MsiDirectoryName.source (d : MsiDirectoryName) : Option MsiName :=
  match strFind ':' d.combined with
  | some index => some (MsiName.ofStr (d.combined.take index))
  | none => none

/-- `MsiDirectoryName::target`: the text after the first `:` when `:`
occurs, otherwise the whole string, viewed as an `MsiName`. -/
def MsiDirectoryName.target (d : MsiDirectoryName) : MsiName :=
  match strFind ':' d.combined with
  | some index => MsiName.ofStr (d.combined.drop (index + 1))
  | none => MsiName.ofStr d.combined

/-- `Display for MsiDirectoryName`: `source = [{source}], target = [{target}]`
when a source is present, otherwise the target's rendering. -/
def MsiDirectoryName.display (d : MsiDirectoryName) : List Char :=
  match d.source with
  | some src =>
      "source = [".toList ++ src.display ++ "], target = [".toList
        ++ d.target.display ++ "]".toList
  | none => d.target.display

/-- `Debug for MsiDirectoryName`: the raw combined string. -/
def MsiDirectoryName.debugFmt (d : MsiDirectoryName) : List Char :=
  d.combined

/-! The duplicate implementation in `main.rs` (crate root), embedded
separately.  `main.rs` has no `is_located_at_parent`. -/

namespace mainsrc

/-- `MsiName` from `main.rs`. -/
structure MsiName where
  combined : List Char
deriving DecidableEq

/-- `MsiDirectoryName` from `main.rs`. -/
structure MsiDirectoryName where
  combined : List Char
deriving DecidableEq

/-- `impl From<&str> for MsiName` in `main.rs`. -/
def MsiName.ofStr (s : List Char) : MsiName := ⟨s⟩

/-- `impl From<&str> for MsiDirectoryName` in `main.rs`. -/
def MsiDirectoryName.ofStr (s : List Char) : MsiDirectoryName := ⟨s⟩

/-- `MsiName::long` in `main.rs`. -/
def MsiName.long (n : MsiName) : List Char :=
  match strFind '|' n.combined with
  | some index => n.combined.drop (index + 1)
  | none => n.combined

/-- `MsiName::short` in `main.rs`. -/
def MsiName.short (n : MsiName) : Option (List Char) :=
  match strFind '|' n.combined with
  | some index => some (n.combined.take index)
  | none => none

/-- `Display for MsiName` in `main.rs`. -/
def MsiName.display (n : MsiName) : List Char :=
  match n.short with
  | some sh => "short = ".toList ++ sh ++ ", long = ".toList ++ n.long
  | none => n.long

/-- `Debug for MsiName` in `main.rs`. -/
def MsiName.debugFmt (n : MsiName) : List Char :=
  n.combined

/-- `MsiDirectoryName::source` in `main.rs`. -/
def MsiDirectoryName.source (d : MsiDirectoryName) : Option MsiName :=
  match strFind ':' d.combined with
  | some index => some (MsiName.ofStr (d.combined.take index))
  | none => none

/-- `MsiDirectoryName::target` in `main.rs`. -/
def MsiDirectoryName.target (d : MsiDirectoryName) : MsiName :=
  match strFind ':' d.combined with
  | some index => MsiName.ofStr (d.combined.drop (index + 1))
  | none => MsiName.ofStr d.combined

/-- `Display for MsiDirectoryName` in `main.rs`. -/
def MsiDirectoryName.display (d : MsiDirectoryName) : List Char :=
  match d.source with
  | some src =>
      "source = [".toList ++ src.display ++ "], target = [".toList
        ++ d.target.display ++ "]".toList
  | none => d.target.display

/-- `Debug for MsiDirectoryName` in `main.rs`. -/
def MsiDirectoryName.debugFmt (d : MsiDirectoryName) : List Char :=
  d.combined

end mainsrc

/-! Basic facts about `strFind`. -/

/-- When `c` does not occur, `strFind` finds nothing. -/
theorem strFind_eq_none_of_not_mem {c : Char} :
    ∀ {s : List Char}, c ∉ s → strFind c s = none
  | [], _ => rfl
  | x :: xs, h => by
      have hx : ¬ x = c := fun e => h (e ▸ List.mem_cons_self x xs)
      have hxs : c ∉ xs := fun m => h (List.mem_cons_of_mem x m)
      simp [strFind, hx, strFind_eq_none_of_not_mem hxs]

/-- When `c` first occurs right after a `c`-free prefix `a`, `strFind`
returns the length of `a`. -/
theorem strFind_append {c : Char} :
    ∀ (a b : List Char), c ∉ a → strFind c (a ++ c :: b) = some a.length
  | [], b, _ => by simp [strFind]
  | x :: a, b, h => by
      have hx : ¬ x = c := fun e => h (e ▸ List.mem_cons_self x a)
      have ha : c ∉ a := fun m => h (List.mem_cons_of_mem x m)
      simp [strFind, hx, strFind_append a b ha]

/-- A successful `strFind` decomposes the list at the found index, and the
prefix before the separator is separator-free. -/
theorem strFind_split {c : Char} :
    ∀ (s : List Char) (i : Nat), strFind c s = some i →
      s.take i ++ c :: s.drop (i + 1) = s ∧ c ∉ s.take i
  | [], i, h => by simp [strFind] at h
  | x :: xs, i, h => by
      by_cases hx : x = c
      · subst hx
        simp [strFind] at h
        subst h
        simp
      · simp [strFind, hx] at h
        obtain ⟨j, hj, hij⟩ := h
        subst hij
        obtain ⟨h₁, h₂⟩ := strFind_split xs j hj
        refine ⟨?_, ?_⟩
        · simpa [List.take, List.drop] using h₁
        · intro hm
          rcases List.mem_cons.mp (by simpa [List.take] using hm) with h | h
          · exact hx h.symm
          · exact h₂ h

/-- Taking the prefix length from `a ++ c :: b` recovers `a`. -/
theorem take_len_append (c : Char) (a b : List Char) :
    (a ++ c :: b).take a.length = a :=
  List.take_left a (c :: b)

/-- Dropping the prefix length plus one from `a ++ c :: b` recovers `b`. -/
theorem drop_len_append (c : Char) (a b : List Char) :
    (a ++ c :: b).drop (a.length + 1) = b := by
  have h : a ++ c :: b = (a ++ [c]) ++ b := by simp
  have h₂ : a.length + 1 = (a ++ [c]).length := by simp
  rw [h, h₂, List.drop_left]

/-! Splitting lemmas for the accessors, shared by the claim theorems. -/

/-- Without a `|`, the short form is absent. -/
theorem short_eq_none {s : List Char} (h : '|' ∉ s) :
    (MsiName.ofStr s).short = none := by
  simp [MsiName.short, MsiName.ofStr, strFind_eq_none_of_not_mem h]

/-- Without a `|`, the long form is the whole string. -/
theorem long_eq_self {s : List Char} (h : '|' ∉ s) :
    (MsiName.ofStr s).long = s := by
  simp [MsiName.long, MsiName.ofStr, strFind_eq_none_of_not_mem h]

/-- With a first `|` after `a`, the short form is `a`. -/
theorem short_split (a b : List Char) (h : '|' ∉ a) :
    (MsiName.ofStr (a ++ '|' :: b)).short = some a := by
  simp [MsiName.short, MsiName.ofStr, strFind_append a b h, take_len_append]

/-- With a first `|` after `a`, the long form is the text after it. -/
theorem long_split (a b : List Char) (h : '|' ∉ a) :
    (MsiName.ofStr (a ++ '|' :: b)).long = b := by
  simp [MsiName.long, MsiName.ofStr, strFind_append a b h, drop_len_append]

/-- Without a `:`, the source is absent. -/
theorem source_eq_none {s : List Char} (h : ':' ∉ s) :
    (MsiDirectoryName.ofStr s).source = none := by
  simp [MsiDirectoryName.source, MsiDirectoryName.ofStr,
    strFind_eq_none_of_not_mem h]

/-- Without a `:`, the target views the whole string. -/
theorem target_eq_self {s : List Char} (h : ':' ∉ s) :
    (MsiDirectoryName.ofStr s).target = MsiName.ofStr s := by
  simp [MsiDirectoryName.target, MsiDirectoryName.ofStr,
    strFind_eq_none_of_not_mem h]

/-- With a first `:` after `a`, the source views `a`. -/
theorem source_split (a b : List Char) (h : ':' ∉ a) :
    (MsiDirectoryName.ofStr (a ++ ':' :: b)).source
      = some (MsiName.ofStr a) := by
  simp [MsiDirectoryName.source, MsiDirectoryName.ofStr,
    strFind_append a b h, take_len_append]

/-- With a first `:` after `a`, the target views the text after it. -/
theorem target_split (a b : List Char) (h : ':' ∉ a) :
    (MsiDirectoryName.ofStr (a ++ ':' :: b)).target = MsiName.ofStr b := by
  simp [MsiDirectoryName.target, MsiDirectoryName.ofStr,
    strFind_append a b h, drop_len_append]

/-! Claim theorems. -/

/-- C1: `MsiDirectoryName::from` splits on the first `:`.  Without a `:`
the source is absent and the target's combined value is the whole input;
with the first `:` after the `:`-free prefix `a` (i.e. at position
`a.length`), the source is present with combined value `a` and the
target's combined value is the remainder `b`. -/
theorem spec_C1 (s : List Char) :
    (':' ∉ s →
      (MsiDirectoryName.ofStr s).source = none ∧
      (MsiDirectoryName.ofStr s).target.combined = s) ∧
    (∀ a b, s = a ++ ':' :: b → ':' ∉ a →
      (MsiDirectoryName.ofStr s).source = some (MsiName.ofStr a) ∧
      (MsiDirectoryName.ofStr s).target.combined = b) := by
  refine ⟨fun h => ⟨source_eq_none h, ?_⟩, fun a b hs ha => ?_⟩
  · rw [target_eq_self h]
    rfl
  · subst hs
    refine ⟨source_split a b ha, ?_⟩
    rw [target_split a b ha]
    rfl

/-- C1 witness: concrete instances with and without a `:`. -/
theorem spec_C1_witness :
    ((MsiDirectoryName.ofStr "a:b".toList).source
        = some (MsiName.ofStr "a".toList) ∧
      (MsiDirectoryName.ofStr "a:b".toList).target.combined = "b".toList) ∧
    ((MsiDirectoryName.ofStr "ab".toList).source = none ∧
      (MsiDirectoryName.ofStr "ab".toList).target.combined = "ab".toList) :=
  ⟨(spec_C1 "a:b".toList).2 "a".toList "b".toList (by decide) (by decide),
    (spec_C1 "ab".toList).1 (by decide)⟩

/-- C2: `MsiName::from` splits on the first `|`.  Without a `|` the short
form is absent and the long form is the whole input; with the first `|`
after the `|`-free prefix `a`, the short form is present and equals `a`
and the long form is the remainder `b`; when `|` is the first character
the short form is present and empty. -/
theorem spec_C2 (s : List Char) :
    ('|' ∉ s →
      (MsiName.ofStr s).short = none ∧ (MsiName.ofStr s).long = s) ∧
    (∀ a b, s = a ++ '|' :: b → '|' ∉ a →
      (MsiName.ofStr s).short = some a ∧ (MsiName.ofStr s).long = b) ∧
    (∀ b, s = '|' :: b → (MsiName.ofStr s).short = some []) := by
  refine ⟨fun h => ⟨short_eq_none h, long_eq_self h⟩,
    fun a b hs ha => ?_, fun b hs => ?_⟩
  · subst hs
    exact ⟨short_split a b ha, long_split a b ha⟩
  · subst hs
    exact short_split [] b (by simp)

/-- C2 witness: concrete instances, including a leading `|`. -/
theorem spec_C2_witness :
    ((MsiName.ofStr "xy".toList).short = none ∧
      (MsiName.ofStr "xy".toList).long = "xy".toList) ∧
    ((MsiName.ofStr "x|y".toList).short = some "x".toList ∧
      (MsiName.ofStr "x|y".toList).long = "y".toList) ∧
    (MsiName.ofStr "|y".toList).short = some [] :=
  ⟨(spec_C2 "xy".toList).1 (by decide),
    (spec_C2 "x|y".toList).2.1 "x".toList "y".toList (by decide) (by decide),
    (spec_C2 "|y".toList).2.2 "y".toList (by decide)⟩

/-- C3: `is_located_at_parent` is true exactly when the long form is `.`,
or the long form is not `.` and a short form exists and equals `.`
(long-first precedence). -/
theorem spec_C3 (s : List Char) :
    (MsiName.ofStr s).is_located_at_parent = true ↔
      ((MsiName.ofStr s).long = ['.'] ∨
        ((MsiName.ofStr s).long ≠ ['.'] ∧
          (MsiName.ofStr s).short = some ['.'])) := by
  unfold MsiName.is_located_at_parent
  by_cases hl : (MsiName.ofStr s).long = ['.']
  · simp [hl]
  · cases hsh : (MsiName.ofStr s).short with
    | none => simp [hl, hsh]
    | some src => simp [hl, hsh]

/-- C4: construction and every accessor are total: for every input string
each operation evaluates to a definite result. -/
theorem spec_C4 (s : List Char) :
    ∃ src tgt cmbd sh lg par cmbn dn dd,
      (MsiDirectoryName.ofStr s).source = src ∧
      (MsiDirectoryName.ofStr s).target = tgt ∧
      (MsiDirectoryName.ofStr s).combined = cmbd ∧
      (MsiName.ofStr s).short = sh ∧
      (MsiName.ofStr s).long = lg ∧
      (MsiName.ofStr s).is_located_at_parent = par ∧
      (MsiName.ofStr s).combined = cmbn ∧
      (MsiName.ofStr s).display = dn ∧
      (MsiDirectoryName.ofStr s).display = dd :=
  ⟨_, _, _, _, _, _, _, _, _,
    rfl, rfl, rfl, rfl, rfl, rfl, rfl, rfl, rfl⟩

/-- C5: splitting is first-occurrence only: whatever follows the first
separator, later separators included, is kept verbatim in the second
segment and never re-split. -/
theorem spec_C5 (a b x y : List Char) (ha : ':' ∉ a) (hx : '|' ∉ x) :
    (MsiDirectoryName.ofStr (a ++ ':' :: b)).target.combined = b ∧
    (MsiName.ofStr (x ++ '|' :: y)).long = y := by
  refine ⟨?_, long_split x y hx⟩
  rw [target_split a b ha]
  rfl

/-- C5 witness: second segments that themselves contain separators are
kept whole. -/
theorem spec_C5_witness :
    (MsiDirectoryName.ofStr "a:b:c".toList).target.combined = "b:c".toList ∧
    (MsiName.ofStr "x|y|z".toList).long = "y|z".toList := by
  have h := spec_C5 "a".toList "b:c".toList "x".toList "y|z".toList
    (by decide) (by decide)
  exact h

/-- C6: `combined` is an untouched round-trip of the original input for
both view types. -/
theorem spec_C6 (s : List Char) :
    (MsiDirectoryName.ofStr s).combined = s ∧
    (MsiName.ofStr s).combined = s :=
  ⟨rfl, rfl⟩

/-- C7: edge cases of `MsiName`: on the empty input the long form is
empty, the short form absent and the parent test false; on the input
`|` the short form is present and empty, the long form empty and the
parent test false. -/
theorem spec_C7 :
    (MsiName.ofStr "".toList).long = "".toList ∧
    (MsiName.ofStr "".toList).short = none ∧
    (MsiName.ofStr "".toList).is_located_at_parent = false ∧
    (MsiName.ofStr "|".toList).short = some "".toList ∧
    (MsiName.ofStr "|".toList).long = "".toList ∧
    (MsiName.ofStr "|".toList).is_located_at_parent = false := by
  decide

/-- C8: rendering.  Debug of both types is the raw combined string; the
Display of a name is the long form alone without a `|`, and
`short = {short}, long = {long}` when split at the first `|`; the Display
of a directory name is the target's rendering without a `:`, and
`source = [{source}], target = [{target}]` when split at the first `:`. -/
theorem spec_C8 (s : List Char) :
    (MsiName.ofStr s).debugFmt = s ∧
    (MsiDirectoryName.ofStr s).debugFmt = s ∧
    ('|' ∉ s → (MsiName.ofStr s).display = s) ∧
    (∀ a b, s = a ++ '|' :: b → '|' ∉ a →
      (MsiName.ofStr s).display
        = "short = ".toList ++ a ++ ", long = ".toList ++ b) ∧
    (':' ∉ s → (MsiDirectoryName.ofStr s).display
        = (MsiName.ofStr s).display) ∧
    (∀ a b, s = a ++ ':' :: b → ':' ∉ a →
      (MsiDirectoryName.ofStr s).display
        = "source = [".toList ++ (MsiName.ofStr a).display
          ++ "], target = [".toList ++ (MsiName.ofStr b).display
          ++ "]".toList) := by
  refine ⟨rfl, rfl, fun h => ?_, fun a b hs ha => ?_, fun h => ?_,
    fun a b hs ha => ?_⟩
  · rw [MsiName.display, short_eq_none h, long_eq_self h]
  · subst hs
    rw [MsiName.display, short_split a b ha, long_split a b ha]
  · rw [MsiDirectoryName.display, source_eq_none h, target_eq_self h]
  · subst hs
    rw [MsiDirectoryName.display, source_split a b ha, target_split a b ha]

/-- C8 witness: concrete renderings for a split name and a split
directory name. -/
theorem spec_C8_witness :
    (MsiName.ofStr "ab|cd".toList).display
      = "short = ".toList ++ "ab".toList ++ ", long = ".toList
        ++ "cd".toList ∧
    (MsiDirectoryName.ofStr "x:y".toList).display
      = "source = [".toList ++ (MsiName.ofStr "x".toList).display
        ++ "], target = [".toList ++ (MsiName.ofStr "y".toList).display
        ++ "]".toList :=
  ⟨(spec_C8 "ab|cd".toList).2.2.2.1 "ab".toList "cd".toList
      (by decide) (by decide),
    (spec_C8 "x:y".toList).2.2.2.2.2 "x".toList "y".toList
      (by decide) (by decide)⟩

/-- C9: reconstruction identity: when a source is present, source plus
`:` plus target reassembles the input exactly; when a short form is
present, short plus `|` plus long reassembles the input exactly. -/
theorem spec_C9 (s : List Char) :
    (∀ src, (MsiDirectoryName.ofStr s).source = some src →
      src.combined ++ ':' :: (MsiDirectoryName.ofStr s).target.combined
        = s) ∧
    (∀ sh, (MsiName.ofStr s).short = some sh →
      sh ++ '|' :: (MsiName.ofStr s).long = s) := by
  constructor
  · intro src hsrc
    cases hf : strFind ':' s with
    | none =>
        rw [MsiDirectoryName.source, MsiDirectoryName.ofStr] at hsrc
        simp [hf] at hsrc
    | some i =>
        rw [MsiDirectoryName.source, MsiDirectoryName.ofStr] at hsrc
        simp [hf] at hsrc
        rw [MsiDirectoryName.target, MsiDirectoryName.ofStr]
        simp only [hf]
        rw [← hsrc]
        exact (strFind_split s i hf).1
  · intro sh hsh
    cases hf : strFind '|' s with
    | none =>
        rw [MsiName.short, MsiName.ofStr] at hsh
        simp [hf] at hsh
    | some i =>
        rw [MsiName.short, MsiName.ofStr] at hsh
        simp [hf] at hsh
        rw [MsiName.long, MsiName.ofStr]
        simp only [hf]
        rw [← hsh]
        exact (strFind_split s i hf).1

/-- C9 witness: concrete reassembly for a directory name and a name. -/
theorem spec_C9_witness :
    (MsiName.ofStr "a".toList).combined
      ++ ':' :: (MsiDirectoryName.ofStr "a:b".toList).target.combined
      = "a:b".toList ∧
    "x".toList ++ '|' :: (MsiName.ofStr "x|y".toList).long
      = "x|y".toList :=
  ⟨(spec_C9 "a:b".toList).1 (MsiName.ofStr "a".toList) (by decide),
    (spec_C9 "x|y".toList).2 "x".toList (by decide)⟩

/-- The `main.rs` short accessor agrees with the `lib.rs` one. -/
theorem agree_short (s : List Char) :
    (mainsrc.MsiName.ofStr s).short = (MsiName.ofStr s).short := by
  cases hf : strFind '|' s <;>
    simp [mainsrc.MsiName.short, MsiName.short, mainsrc.MsiName.ofStr,
      MsiName.ofStr, hf]

/-- The `main.rs` long accessor agrees with the `lib.rs` one. -/
theorem agree_long (s : List Char) :
    (mainsrc.MsiName.ofStr s).long = (MsiName.ofStr s).long := by
  cases hf : strFind '|' s <;>
    simp [mainsrc.MsiName.long, MsiName.long, mainsrc.MsiName.ofStr,
      MsiName.ofStr, hf]

/-- The `main.rs` name rendering agrees with the `lib.rs` one. -/
theorem agree_display (s : List Char) :
    (mainsrc.MsiName.ofStr s).display = (MsiName.ofStr s).display := by
  unfold mainsrc.MsiName.display MsiName.display
  rw [agree_short, agree_long]

/-- C10: the duplicate implementations in `main.rs` agree with those in
`lib.rs` on source presence and combined value, target's combined value,
short, long, combined, and the Display and Debug renderings, for every
input. -/
theorem spec_C10 (s : List Char) :
    (mainsrc.MsiDirectoryName.ofStr s).source.map mainsrc.MsiName.combined
      = (MsiDirectoryName.ofStr s).source.map MsiName.combined ∧
    (mainsrc.MsiDirectoryName.ofStr s).target.combined
      = (MsiDirectoryName.ofStr s).target.combined ∧
    (mainsrc.MsiName.ofStr s).short = (MsiName.ofStr s).short ∧
    (mainsrc.MsiName.ofStr s).long = (MsiName.ofStr s).long ∧
    (mainsrc.MsiName.ofStr s).combined = (MsiName.ofStr s).combined ∧
    (mainsrc.MsiDirectoryName.ofStr s).combined
      = (MsiDirectoryName.ofStr s).combined ∧
    (mainsrc.MsiName.ofStr s).display = (MsiName.ofStr s).display ∧
    (mainsrc.MsiName.ofStr s).debugFmt = (MsiName.ofStr s).debugFmt ∧
    (mainsrc.MsiDirectoryName.ofStr s).display
      = (MsiDirectoryName.ofStr s).display ∧
    (mainsrc.MsiDirectoryName.ofStr s).debugFmt
      = (MsiDirectoryName.ofStr s).debugFmt := by
  refine ⟨?_, ?_, agree_short s, agree_long s, rfl, rfl,
    agree_display s, rfl, ?_, rfl⟩
  · cases hf : strFind ':' s <;>
      simp [mainsrc.MsiDirectoryName.source, MsiDirectoryName.source,
        mainsrc.MsiDirectoryName.ofStr, MsiDirectoryName.ofStr, hf,
        mainsrc.MsiName.ofStr, MsiName.ofStr, mainsrc.MsiName.combined,
        MsiName.combined]
  · cases hf : strFind ':' s <;>
      simp [mainsrc.MsiDirectoryName.target, MsiDirectoryName.target,
        mainsrc.MsiDirectoryName.ofStr, MsiDirectoryName.ofStr, hf,
        mainsrc.MsiName.ofStr, MsiName.ofStr, mainsrc.MsiName.combined,
        MsiName.combined]
  · unfold mainsrc.MsiDirectoryName.display MsiDirectoryName.display
    cases hf : strFind ':' s <;>
      simp [mainsrc.MsiDirectoryName.source, MsiDirectoryName.source,
        mainsrc.MsiDirectoryName.target, MsiDirectoryName.target,
        mainsrc.MsiDirectoryName.ofStr, MsiDirectoryName.ofStr, hf,
        agree_display]
